import Mathlib

/-!
Shallow embedding of the EventSystem publish/subscribe dispatcher
(src/EventSystem/EventSystem.h, namespace EventSystem).

The C++ state is one static pointer
  myObservers : std::unordered_map<std::type_index, std::vector<Observer*>>*
modelled here as follows:
  * std::type_index (an event category)  is a Nat,
  * Observer*       (an observer handle) is a Nat,
  * the unordered_map is an association list of (category, handle list)
    pairs (its iteration order is irrelevant to every property below, and
    reachable states keep keys unique),
  * the pointer is an Option: none is nullptr.
Attach, Detach and Notify are translated statement by statement; Notify
returns both the list of observers whose OnNotify callback is invoked (in
invocation order) and the registry state at return.
-/

namespace EventSys

abbrev Category := Nat

abbrev Handle := Nat

abbrev Registry := List (Category × List Handle)

abbrev State := Option Registry

/-- myObservers->find(c): the first (in reachable states, the only) entry
whose key is c. -/
def findList : Registry → Category → Option (List Handle)
  | [], _ => none
  | e :: r, c => if e.1 = c then some e.2 else findList r c

/-- writing through the reference obtained from operator[]: every entry
with key c receives the new list (reachable states hold one such entry). -/
def setList : Registry → Category → List Handle → Registry
  | [], _, _ => []
  | e :: r, c, l => (if e.1 = c then (c, l) else e) :: setList r c l

/-- myObservers->erase(c). -/
def eraseCat : Registry → Category → Registry
  | [], _ => []
  | e :: r, c => if e.1 = c then eraseCat r c else e :: eraseCat r c

/-- the key-creating effect of (*myObservers)[c]: a fresh empty vector is
default-inserted when c has no entry yet. -/
def ensureCat (r : Registry) (c : Category) : Registry :=
  if (findList r c).isSome then r else r ++ [(c, [])]

/-- the vector (*myObservers)[c] as read after ensureCat. -/
def getList (r : Registry) (c : Category) : List Handle :=
  (findList r c).getD []

/-- Subject::Attach<EventClass>(anObserver). -/
def Attach (c : Category) (h : Handle) (st : State) : State :=
  -- lazy init: allocate an empty map when myObservers == nullptr
  let r0 : Registry := st.getD []
  -- std::vector<Observer*>& observers = (*myObservers)[typeid(EventClass)]
  let r1 : Registry := ensureCat r0 c
  let observers : List Handle := getList r1 c
  -- duplicate check: diagnostic printf and return, no modification
  if h ∈ observers then some r1
  -- observers.push_back(anObserver)
  else some (setList r1 c (observers ++ [h]))

/-- the effect on a vector of pointers of std::remove(begin, end, h)
followed by erase(it) when it != end: matching elements are dropped, the
surviving elements keep their relative order at the front, positions the
algorithm never wrote keep their old values, and erase(it) removes the one
element at the new logical end; nothing happens when h does not occur. -/
def removeErase (l : List Handle) (h : Handle) : List Handle :=
  let keep := l.filter fun x => x != h
  if h ∈ l then keep ++ l.drop (keep.length + 1) else l

/-- Subject::Detach<EventClass>(anObserver). -/
def Detach (c : Category) (h : Handle) (st : State) : State :=
  match st with
  | none => none        -- diagnostic printf and return
  | some r =>
    -- std::vector<Observer*>& observers = (*myObservers)[typeid(EventClass)]
    let r1 : Registry := ensureCat r c
    let observers : List Handle := getList r1 c
    -- std::remove, then observers.erase(it) when it != observers.end()
    let observers1 : List Handle := removeErase observers h
    let r2 : Registry := setList r1 c observers1
    -- if (observers.empty()) myObservers->erase(typeid(EventClass))
    let r3 : Registry := if observers1 = [] then eraseCat r2 c else r2
    -- if (myObservers->empty()) { delete myObservers; myObservers = nullptr; }
    if r3 = [] then none else some r3

/-- Subject::Notify<EventClass>(anEvent): first component is the list of
observers whose OnNotify is invoked with the event, in invocation order;
second component is myObservers when Notify returns (the body only reads
the map, it never writes to it). -/
def Notify (st : State) (c : Category) : List Handle × State :=
  match st with
  | none => ([], none)  -- diagnostic printf and return
  | some r =>
    match findList r c with
    | some observers => (observers, some r)   -- fan-out in vector order
    | none => ([], some r)

/-- the subscriber list the registry currently holds for category c
([] when c is absent or the registry is uninitialized). -/
def subsList (st : State) (c : Category) : List Handle :=
  match st with
  | none => []
  | some r => getList r c

/-- the three operations of the dispatcher API, category arguments
standing for the template parameter EventClass. -/
inductive Op where
  | attach (c : Category) (h : Handle)
  | detach (c : Category) (h : Handle)
  | notify (c : Category)

/-- one API call acting on the registry state. -/
def step (st : State) : Op → State
  | .attach c h => Attach c h st
  | .detach c h => Detach c h st
  | .notify c => (Notify st c).2

/-- run a call sequence from the uninitialized state (myObservers ==
nullptr, its initial value). -/
def run (ops : List Op) : State :=
  ops.foldl step none

/-- structural well-formedness of an allocated registry: it holds at least
one category, keys are unique, and every category maps to a non-empty
duplicate-free subscriber list. -/
def InvRegistry (r : Registry) : Prop :=
  r ≠ [] ∧ (r.map Prod.fst).Nodup ∧ ∀ e ∈ r, e.2 ≠ [] ∧ e.2.Nodup

/-- every dispatcher state is nullptr or a well-formed allocated map. -/
def Inv : State → Prop
  | none => True
  | some r => InvRegistry r

theorem findList_eq_none_iff (r : Registry) (c : Category) :
    findList r c = none ↔ c ∉ r.map Prod.fst := by
  induction r with
  | nil => simp [findList]
  | cons e r ih =>
    by_cases he : e.1 = c
    · simp [findList, he]
    · simp [findList, he, ih, Ne.symm he]

theorem findList_snoc_self (r : Registry) (c : Category) (l : List Handle)
    (hf : findList r c = none) : findList (r ++ [(c, l)]) c = some l := by
  induction r with
  | nil => simp [findList]
  | cons e r ih =>
    by_cases he : e.1 = c
    · simp [findList, he] at hf
    · simp [findList, he] at hf ⊢
      exact ih hf

theorem findList_snoc_ne (r : Registry) (c d : Category) (l : List Handle)
    (hdc : d ≠ c) : findList (r ++ [(c, l)]) d = findList r d := by
  induction r with
  | nil => simp [findList, Ne.symm hdc]
  | cons e r ih => by_cases he : e.1 = d <;> simp [findList, he, ih]

theorem findList_setList (r : Registry) (c : Category) (l : List Handle) :
    findList (setList r c l) c = (findList r c).map fun _ => l := by
  induction r with
  | nil => simp [findList, setList]
  | cons e r ih => by_cases he : e.1 = c <;> simp [findList, setList, he, ih]

theorem findList_setList_ne (r : Registry) (c d : Category) (l : List Handle)
    (hdc : d ≠ c) : findList (setList r c l) d = findList r d := by
  induction r with
  | nil => simp [setList]
  | cons e r ih =>
    by_cases he : e.1 = c
    · simp only [setList, if_pos he, findList]
      rw [if_neg (Ne.symm hdc), if_neg (by rw [he]; exact Ne.symm hdc), ih]
    · simp only [setList, if_neg he, findList]
      by_cases hd : e.1 = d
      · rw [if_pos hd, if_pos hd]
      · rw [if_neg hd, if_neg hd, ih]

theorem findList_eraseCat_self (r : Registry) (c : Category) :
    findList (eraseCat r c) c = none := by
  induction r with
  | nil => simp [findList, eraseCat]
  | cons e r ih => by_cases he : e.1 = c <;> simp [findList, eraseCat, he, ih]

theorem findList_eraseCat_ne (r : Registry) (c d : Category)
    (hdc : d ≠ c) : findList (eraseCat r c) d = findList r d := by
  induction r with
  | nil => simp [eraseCat]
  | cons e r ih =>
    by_cases he : e.1 = c
    · simp only [eraseCat, if_pos he, findList]
      rw [ih, if_neg (by rw [he]; exact Ne.symm hdc)]
    · simp only [eraseCat, if_neg he, findList]
      by_cases hd : e.1 = d
      · rw [if_pos hd, if_pos hd]
      · rw [if_neg hd, if_neg hd, ih]

theorem setList_of_none (r : Registry) (c : Category) (l : List Handle)
    (hf : findList r c = none) : setList r c l = r := by
  induction r with
  | nil => rfl
  | cons e r ih =>
    by_cases he : e.1 = c
    · simp [findList, he] at hf
    · simp [findList, he] at hf
      simp [setList, he, ih hf]

theorem eraseCat_of_none (r : Registry) (c : Category)
    (hf : findList r c = none) : eraseCat r c = r := by
  induction r with
  | nil => rfl
  | cons e r ih =>
    by_cases he : e.1 = c
    · simp [findList, he] at hf
    · simp [findList, he] at hf
      simp [eraseCat, he, ih hf]

theorem setList_append (r s : Registry) (c : Category) (l : List Handle) :
    setList (r ++ s) c l = setList r c l ++ setList s c l := by
  induction r with
  | nil => rfl
  | cons e r ih => simp [setList, ih]

theorem eraseCat_append (r s : Registry) (c : Category) :
    eraseCat (r ++ s) c = eraseCat r c ++ eraseCat s c := by
  induction r with
  | nil => rfl
  | cons e r ih =>
    by_cases he : e.1 = c <;> simp [eraseCat, he, ih]

theorem setList_eq_nil_iff (r : Registry) (c : Category) (l : List Handle) :
    setList r c l = [] ↔ r = [] := by
  cases r with
  | nil => simp [setList]
  | cons e r => simp [setList]

theorem setList_self (r : Registry) (c : Category) (l : List Handle)
    (hkeys : (r.map Prod.fst).Nodup) (hf : findList r c = some l) :
    setList r c l = r := by
  induction r with
  | nil => simp [findList] at hf
  | cons e r ih =>
    rw [List.map_cons, List.nodup_cons] at hkeys
    by_cases he : e.1 = c
    · have hf2 : e.2 = l := by simpa [findList, he] using hf
      have hnone : findList r c = none :=
        (findList_eq_none_iff r c).mpr (he ▸ hkeys.1)
      simp only [setList, if_pos he, setList_of_none r c l hnone]
      rw [← hf2, ← he]
    · have hf2 : findList r c = some l := by simpa [findList, he] using hf
      simp only [setList, if_neg he, ih hkeys.2 hf2]

theorem findList_mem (r : Registry) (c : Category) (l : List Handle)
    (hf : findList r c = some l) : (c, l) ∈ r := by
  induction r with
  | nil => simp [findList] at hf
  | cons e r ih =>
    by_cases he : e.1 = c
    · have hf2 : e.2 = l := by simpa [findList, he] using hf
      rw [← hf2, ← he, Prod.mk.eta]
      exact List.mem_cons_self _ _
    · have hf2 : findList r c = some l := by simpa [findList, he] using hf
      exact List.mem_cons_of_mem _ (ih hf2)

theorem keys_setList (r : Registry) (c : Category) (l : List Handle) :
    (setList r c l).map Prod.fst = r.map Prod.fst := by
  induction r with
  | nil => rfl
  | cons e r ih =>
    by_cases he : e.1 = c <;> simp [setList, he, ih]

theorem mem_setList (r : Registry) (c : Category) (l : List Handle)
    (e : Category × List Handle) (hm : e ∈ setList r c l) :
    e = (c, l) ∨ e ∈ r := by
  induction r with
  | nil => simp [setList] at hm
  | cons e0 r ih =>
    simp [setList] at hm
    rcases hm with hm | hm
    · by_cases he : e0.1 = c
      · simp [he] at hm; left; exact hm
      · simp [he] at hm; right; simp [hm]
    · rcases ih hm with hm1 | hm1
      · left; exact hm1
      · right; exact List.mem_cons_of_mem _ hm1

theorem mem_eraseCat (r : Registry) (c : Category)
    (e : Category × List Handle) (hm : e ∈ eraseCat r c) :
    e.1 ≠ c ∧ e ∈ r := by
  induction r with
  | nil => simp [eraseCat] at hm
  | cons e0 r ih =>
    by_cases he : e0.1 = c
    · simp [eraseCat, he] at hm
      exact ⟨(ih hm).1, List.mem_cons_of_mem _ (ih hm).2⟩
    · simp [eraseCat, he] at hm
      rcases hm with hm | hm
      · subst hm; exact ⟨he, List.mem_cons_self _ _⟩
      · exact ⟨(ih hm).1, List.mem_cons_of_mem _ (ih hm).2⟩

theorem eraseCat_sublist (r : Registry) (c : Category) :
    (eraseCat r c).Sublist r := by
  induction r with
  | nil => simp [eraseCat]
  | cons e r ih =>
    by_cases he : e.1 = c
    · simp only [eraseCat, if_pos he]
      exact ih.cons e
    · simp only [eraseCat, if_neg he]
      exact ih.cons₂ e

theorem removeErase_of_not_mem (l : List Handle) (h : Handle)
    (hm : h ∉ l) : removeErase l h = l := by
  simp [removeErase, hm]

theorem removeErase_of_nodup (l : List Handle) (h : Handle)
    (hnd : l.Nodup) : removeErase l h = l.erase h := by
  by_cases hm : h ∈ l
  · have hkeep : l.filter (fun x => x != h) = l.erase h :=
      (List.Nodup.erase_eq_filter hnd h).symm
    have hlen : (l.erase h).length = l.length - 1 :=
      List.length_erase_of_mem hm
    have hpos : 1 ≤ l.length := List.length_pos_of_mem hm
    simp only [removeErase, hkeep, hm, if_true, hlen]
    rw [Nat.sub_add_cancel hpos, List.drop_length, List.append_nil]
  · rw [removeErase_of_not_mem l h hm, List.erase_of_not_mem hm]

theorem Notify_fst (st : State) (c : Category) :
    (Notify st c).1 = subsList st c := by
  cases st with
  | none => rfl
  | some r =>
    cases hf : findList r c <;> simp [Notify, subsList, getList, hf]

theorem Notify_snd (st : State) (c : Category) :
    (Notify st c).2 = st := by
  cases st with
  | none => rfl
  | some r =>
    cases hf : findList r c <;> simp [Notify, hf]

theorem Attach_none_eq (c : Category) (h : Handle) :
    Attach c h none = some [(c, [h])] := by
  simp [Attach, ensureCat, getList, findList, setList]

theorem Attach_some_found (r : Registry) (c : Category) (h : Handle)
    (obs : List Handle) (hf : findList r c = some obs) :
    Attach c h (some r) =
      if h ∈ obs then some r else some (setList r c (obs ++ [h])) := by
  simp [Attach, ensureCat, getList, hf]

theorem Attach_some_missing (r : Registry) (c : Category) (h : Handle)
    (hf : findList r c = none) :
    Attach c h (some r) = some (r ++ [(c, [h])]) := by
  have h1 : findList (r ++ [(c, [])]) c = some [] := findList_snoc_self r c [] hf
  simp [Attach, ensureCat, getList, hf, h1, setList_append,
        setList_of_none r c [h] hf, setList]

theorem subsList_Attach_self (st : State) (c : Category) (h : Handle) :
    subsList (Attach c h st) c =
      if h ∈ subsList st c then subsList st c else subsList st c ++ [h] := by
  cases st with
  | none =>
    rw [Attach_none_eq]
    simp [subsList, getList, findList]
  | some r =>
    cases hf : findList r c with
    | none =>
      rw [Attach_some_missing r c h hf]
      simp [subsList, getList, hf, findList_snoc_self r c [h] hf]
    | some obs =>
      rw [Attach_some_found r c h obs hf]
      by_cases hm : h ∈ obs
      · simp [subsList, getList, hf, hm]
      · simp [subsList, getList, hf, hm, findList_setList]

theorem Attach_of_mem (st : State) (c : Category) (h : Handle)
    (hm : h ∈ subsList st c) : Attach c h st = st := by
  cases st with
  | none => simp [subsList] at hm
  | some r =>
    cases hf : findList r c with
    | none => simp [subsList, getList, hf] at hm
    | some obs =>
      have hmo : h ∈ obs := by simpa [subsList, getList, hf] using hm
      rw [Attach_some_found r c h obs hf, if_pos hmo]

theorem Attach_mem_self (st : State) (c : Category) (h : Handle) :
    h ∈ subsList (Attach c h st) c := by
  rw [subsList_Attach_self]
  by_cases hm : h ∈ subsList st c
  · rwa [if_pos hm]
  · rw [if_neg hm]
    exact List.mem_append_right _ (List.mem_singleton_self h)

theorem subsList_Attach_ne (st : State) (c d : Category) (h : Handle)
    (hdc : d ≠ c) : subsList (Attach c h st) d = subsList st d := by
  cases st with
  | none =>
    rw [Attach_none_eq]
    simp [subsList, getList, findList, Ne.symm hdc]
  | some r =>
    cases hf : findList r c with
    | none =>
      rw [Attach_some_missing r c h hf]
      simp [subsList, getList, findList_snoc_ne r c d [h] hdc]
    | some obs =>
      rw [Attach_some_found r c h obs hf]
      by_cases hm : h ∈ obs
      · rw [if_pos hm]
      · rw [if_neg hm]
        simp [subsList, getList, findList_setList_ne r c d (obs ++ [h]) hdc]

theorem Inv_Attach (st : State) (c : Category) (h : Handle)
    (hinv : Inv st) : Inv (Attach c h st) := by
  cases st with
  | none =>
    rw [Attach_none_eq]
    exact ⟨by simp, by simp, by simp⟩
  | some r =>
    have hinv2 : InvRegistry r := hinv
    obtain ⟨hne, hkeys, hent⟩ := hinv2
    cases hf : findList r c with
    | none =>
      rw [Attach_some_missing r c h hf]
      have hcnot : c ∉ r.map Prod.fst := (findList_eq_none_iff r c).mp hf
      refine ⟨by simp, ?_, ?_⟩
      · rw [List.map_append, List.map_cons, List.map_nil, List.nodup_append]
        exact ⟨hkeys, List.nodup_singleton c,
          fun a ha hb => hcnot (by rwa [List.mem_singleton.mp hb] at ha)⟩
      · intro e he2
        rcases List.mem_append.mp he2 with hm1 | hm1
        · exact hent e hm1
        · rw [List.mem_singleton.mp hm1]
          exact ⟨by simp, by simp⟩
    | some obs =>
      rw [Attach_some_found r c h obs hf]
      by_cases hm : h ∈ obs
      · rw [if_pos hm]; exact ⟨hne, hkeys, hent⟩
      · rw [if_neg hm]
        have hobs := hent (c, obs) (findList_mem r c obs hf)
        refine ⟨?_, ?_, ?_⟩
        · rw [Ne, setList_eq_nil_iff]; exact hne
        · rw [keys_setList]; exact hkeys
        · intro e he2
          rcases mem_setList r c (obs ++ [h]) e he2 with hm1 | hm1
          · subst hm1
            refine ⟨by simp, ?_⟩
            show (obs ++ [h]).Nodup
            rw [List.nodup_append]
            exact ⟨hobs.2, List.nodup_singleton h,
              fun a ha hb => hm (by rwa [List.mem_singleton.mp hb] at ha)⟩
          · exact hent e hm1

theorem Detach_some_missing (r : Registry) (c : Category) (h : Handle)
    (hf : findList r c = none) (hne : r ≠ []) :
    Detach c h (some r) = some r := by
  have h1 : findList (r ++ [(c, [])]) c = some [] := findList_snoc_self r c [] hf
  simp [Detach, ensureCat, getList, hf, h1, removeErase, setList_append,
        setList_of_none r c [] hf, setList, eraseCat_append,
        eraseCat_of_none r c hf, eraseCat, hne]

theorem Detach_some_absent (r : Registry) (c : Category) (h : Handle)
    (obs : List Handle) (hf : findList r c = some obs)
    (hkeys : (r.map Prod.fst).Nodup) (hm : h ∉ obs) (hobs : obs ≠ []) :
    Detach c h (some r) = some r := by
  have hrne : r ≠ [] := by
    intro hr; rw [hr] at hf; simp [findList] at hf
  simp [Detach, ensureCat, getList, hf, removeErase_of_not_mem obs h hm,
        setList_self r c obs hkeys hf, hobs, hrne]

theorem Detach_of_not_mem (st : State) (c : Category) (h : Handle)
    (hinv : Inv st) (habs : h ∉ subsList st c) : Detach c h st = st := by
  cases st with
  | none => rfl
  | some r =>
    have hinv2 : InvRegistry r := hinv
    obtain ⟨hne, hkeys, hent⟩ := hinv2
    cases hf : findList r c with
    | none => exact Detach_some_missing r c h hf hne
    | some obs =>
      have hmo : h ∉ obs := by simpa [subsList, getList, hf] using habs
      exact Detach_some_absent r c h obs hf hkeys hmo
        (hent (c, obs) (findList_mem r c obs hf)).1

theorem Detach_some_eq (r : Registry) (c : Category) (h : Handle)
    (obs : List Handle) (hf : findList r c = some obs) (hnd : obs.Nodup) :
    Detach c h (some r) =
      (if (if obs.erase h = [] then eraseCat (setList r c (obs.erase h)) c
           else setList r c (obs.erase h)) = []
       then none
       else some (if obs.erase h = []
                  then eraseCat (setList r c (obs.erase h)) c
                  else setList r c (obs.erase h))) := by
  simp only [Detach, ensureCat, hf, Option.isSome_some, if_true, getList,
    Option.getD_some, removeErase_of_nodup obs h hnd]

theorem subsList_collapse (r : Registry) (c : Category) :
    subsList (if r = [] then none else some r) c = getList r c := by
  by_cases hr : r = []
  · simp [hr, subsList, getList, findList]
  · simp [hr, subsList]

theorem subsList_Detach_self (st : State) (c : Category) (h : Handle)
    (hnd : (subsList st c).Nodup) (hm : h ∈ subsList st c) :
    subsList (Detach c h st) c = (subsList st c).erase h := by
  cases st with
  | none => simp [subsList] at hm
  | some r =>
    cases hf : findList r c with
    | none => simp [subsList, getList, hf] at hm
    | some obs =>
      have hobs_eq : subsList (some r) c = obs := by simp [subsList, getList, hf]
      rw [hobs_eq] at hnd hm ⊢
      rw [Detach_some_eq r c h obs hf hnd, subsList_collapse]
      by_cases he : obs.erase h = []
      · rw [if_pos he]
        simp [getList, findList_eraseCat_self, he]
      · rw [if_neg he]
        simp [getList, findList_setList, hf]

theorem subsList_Detach_ne (st : State) (c d : Category) (h : Handle)
    (hdc : d ≠ c) : subsList (Detach c h st) d = subsList st d := by
  cases st with
  | none => rfl
  | some r =>
    have h1 : findList (ensureCat r c) d = findList r d := by
      unfold ensureCat
      by_cases hs : (findList r c).isSome
      · rw [if_pos hs]
      · rw [if_neg hs, findList_snoc_ne r c d [] hdc]
    simp only [Detach]
    rw [subsList_collapse]
    generalize removeErase (getList (ensureCat r c) c) h = l
    by_cases he : l = []
    · rw [if_pos he]
      unfold getList
      rw [findList_eraseCat_ne _ c d hdc, findList_setList_ne _ c d _ hdc, h1]
      rfl
    · rw [if_neg he]
      unfold getList
      rw [findList_setList_ne _ c d _ hdc, h1]
      rfl

theorem Inv_Detach (st : State) (c : Category) (h : Handle)
    (hinv : Inv st) : Inv (Detach c h st) := by
  cases st with
  | none => exact True.intro
  | some r =>
    have hinv2 : InvRegistry r := hinv
    obtain ⟨hne, hkeys, hent⟩ := hinv2
    by_cases hm : h ∈ subsList (some r) c
    · cases hf : findList r c with
      | none => simp [subsList, getList, hf] at hm
      | some obs =>
        have hmo : h ∈ obs := by simpa [subsList, getList, hf] using hm
        have hobs := hent (c, obs) (findList_mem r c obs hf)
        have hnd : obs.Nodup := hobs.2
        rw [Detach_some_eq r c h obs hf hnd]
        by_cases he : obs.erase h = []
        · rw [if_pos he]
          by_cases h3 : eraseCat (setList r c (obs.erase h)) c = []
          · rw [if_pos h3]; exact True.intro
          · rw [if_neg h3]
            refine ⟨h3, ?_, ?_⟩
            · have hsub := (eraseCat_sublist (setList r c (obs.erase h)) c).map Prod.fst
              rw [keys_setList] at hsub
              exact hkeys.sublist hsub
            · intro e he2
              have hme := mem_eraseCat (setList r c (obs.erase h)) c e he2
              rcases mem_setList r c (obs.erase h) e hme.2 with h4 | h4
              · exact absurd (by rw [h4]) hme.1
              · exact hent e h4
        · rw [if_neg he]
          have h3 : setList r c (obs.erase h) ≠ [] := by
            rw [Ne, setList_eq_nil_iff]; exact hne
          rw [if_neg h3]
          refine ⟨h3, ?_, ?_⟩
          · rw [keys_setList]; exact hkeys
          · intro e he2
            rcases mem_setList r c (obs.erase h) e he2 with h4 | h4
            · subst h4
              exact ⟨by simpa using he, by simpa using hnd.erase h⟩
            · exact hent e h4
    · rw [Detach_of_not_mem (some r) c h ⟨hne, hkeys, hent⟩ hm]
      exact ⟨hne, hkeys, hent⟩

theorem Inv_step (st : State) (op : Op) (hinv : Inv st) : Inv (step st op) := by
  cases op with
  | attach c h => exact Inv_Attach st c h hinv
  | detach c h => exact Inv_Detach st c h hinv
  | notify c =>
    show Inv (Notify st c).2
    rw [Notify_snd]
    exact hinv

theorem Inv_foldl (ops : List Op) (st : State) (hinv : Inv st) :
    Inv (ops.foldl step st) := by
  induction ops generalizing st with
  | nil => exact hinv
  | cons op ops ih => exact ih (step st op) (Inv_step st op hinv)

/-- C1: for every category, after subscribing handles A, then B, then C (all
distinct, with no intervening unsubscribes, the category starting with no
subscribers), publishing one event of that category invokes exactly the
notification callbacks of A, B and C, each exactly once, in the order
A, B, C. -/
theorem attach_order_delivery (st : State) (cat : Category) (A B C : Handle)
    (hAB : A ≠ B) (hAC : A ≠ C) (hBC : B ≠ C) (h0 : subsList st cat = []) :
    (Notify (Attach cat C (Attach cat B (Attach cat A st))) cat).1 = [A, B, C] := by
  rw [Notify_fst, subsList_Attach_self, subsList_Attach_self,
    subsList_Attach_self, h0]
  simp [Ne.symm hAB, Ne.symm hAC, Ne.symm hBC]

/-- C1 witness at concrete input: three distinct handles subscribed to
category 0 from the uninitialized state. -/
theorem attach_order_delivery_witness :
    (0 : Handle) ≠ 1 ∧ subsList none 0 = [] ∧
      (Notify (Attach 0 2 (Attach 0 1 (Attach 0 0 none))) 0).1 = [0, 1, 2] :=
  ⟨by decide, by decide,
    attach_order_delivery none 0 0 1 2 (by decide) (by decide) (by decide)
      (by decide)⟩

/-- C2: subscribing a handle already present in a category's list leaves
the state unchanged, subscribing the same handle to the same category twice
yields the same state as subscribing it once, and a publish of that
category after the double subscribe delivers exactly one notification to
that handle. -/
theorem attach_idempotent_single_delivery (st : State) (c : Category)
    (h : Handle) (hnd : (subsList st c).Nodup) :
    (h ∈ subsList st c → Attach c h st = st)
    ∧ Attach c h (Attach c h st) = Attach c h st
    ∧ (Notify (Attach c h (Attach c h st)) c).1.count h = 1 := by
  have hidem : Attach c h (Attach c h st) = Attach c h st :=
    Attach_of_mem (Attach c h st) c h (Attach_mem_self st c h)
  refine ⟨fun hm => Attach_of_mem st c h hm, hidem, ?_⟩
  rw [hidem, Notify_fst, subsList_Attach_self]
  by_cases hm : h ∈ subsList st c
  · rw [if_pos hm]
    exact List.count_eq_one_of_mem hnd hm
  · rw [if_neg hm, List.count_append]
    simp [List.count_eq_zero.mpr hm]

/-- C2 witness at concrete input: handle 3 subscribed twice to category 0
from the uninitialized state. -/
theorem attach_idempotent_single_delivery_witness :
    (subsList none 0).Nodup ∧
      Attach 0 3 (Attach 0 3 none) = Attach 0 3 none ∧
      (Notify (Attach 0 3 (Attach 0 3 none)) 0).1.count 3 = 1 :=
  ⟨by decide, (attach_idempotent_single_delivery none 0 3 (by decide)).2.1,
    (attach_idempotent_single_delivery none 0 3 (by decide)).2.2⟩

/-- C3: unsubscribing the only subscriber of the only category empties that
category's list, removes the category entry, and tears the registry down to
the uninitialized state, leaving no residual category entries. -/
theorem detach_last_subscriber_uninitialized (c : Category) (h : Handle) :
    Detach c h (some [(c, [h])]) = none := by
  rw [Detach_some_eq [(c, [h])] c h [h] (by simp [findList]) (by simp)]
  simp [setList, eraseCat]

/-- C4: an event published under category x is never delivered to an
observer that is subscribed only to a different category y. -/
theorem category_isolation (st : State) (x y : Category) (h : Handle)
    (hxy : x ≠ y) (hy : h ∈ subsList st y) (hx : h ∉ subsList st x) :
    h ∉ (Notify st x).1 := by
  rw [Notify_fst]
  exact hx

/-- C4 witness at concrete input: handle 5 subscribed only to category 1 is
not notified when category 0 publishes. -/
theorem category_isolation_witness :
    (0 : Category) ≠ 1 ∧ (5 : Handle) ∈ subsList (some [(1, [5])]) 1 ∧
      5 ∉ subsList (some [(1, [5])]) 0 ∧ 5 ∉ (Notify (some [(1, [5])]) 0).1 :=
  ⟨by decide, by decide, by decide,
    category_isolation (some [(1, [5])]) 0 1 5 (by decide) (by decide)
      (by decide)⟩

/-- C5: unsubscribe on an anomalous input (uninitialized registry, or a
category/handle pair with no matching subscription) only emits a diagnostic
and leaves the dispatcher state unchanged, in every well-formed state. -/
theorem detach_anomalous_noop (st : State) (c : Category) (h : Handle)
    (hinv : Inv st) (habs : h ∉ subsList st c) :
    Detach c h st = st :=
  Detach_of_not_mem st c h hinv habs

/-- C5 witness at concrete input: detaching handle 2, never subscribed,
from category 0 leaves the registry untouched. -/
theorem detach_anomalous_noop_witness :
    Inv (some [(0, [1])]) ∧ (2 : Handle) ∉ subsList (some [(0, [1])]) 0 ∧
      Detach 0 2 (some [(0, [1])]) = some [(0, [1])] :=
  ⟨⟨by decide, by decide, by decide⟩, by decide,
    detach_anomalous_noop (some [(0, [1])]) 0 2
      ⟨by decide, by decide, by decide⟩ (by decide)⟩

/-- C6: publishing an event whose category has zero subscribers, including
when the registry is uninitialized, invokes no callback and leaves the
dispatcher state unchanged. -/
theorem publish_no_subscribers_noop (st : State) (c : Category)
    (h0 : subsList st c = []) :
    (Notify st c).1 = [] ∧ (Notify st c).2 = st :=
  ⟨by rw [Notify_fst, h0], Notify_snd st c⟩

/-- C6 witness at concrete input: publishing category 0 on the
uninitialized registry. -/
theorem publish_no_subscribers_noop_witness :
    subsList none 0 = [] ∧ (Notify none 0).1 = [] ∧ (Notify none 0).2 = none :=
  ⟨by decide, (publish_no_subscribers_noop none 0 (by decide)).1,
    (publish_no_subscribers_noop none 0 (by decide)).2⟩

/-- C7: publish never changes the registry: Notify returns the state it was
given, for every state and every event category, so registry transitions
come only from the attach and detach operations. -/
theorem publish_preserves_registry (st : State) (c : Category) :
    (Notify st c).2 = st ∧ step st (Op.notify c) = st :=
  ⟨Notify_snd st c, Notify_snd st c⟩

/-- C8: in every state reachable from the uninitialized state by attach,
detach and notify calls, the registry is either uninitialized or holds at
least one category, every category present maps to a non-empty subscriber
list, and no subscriber list holds the same handle twice. -/
theorem reachable_state_invariant (ops : List Op) : Inv (run ops) :=
  Inv_foldl ops none True.intro

/-- C9: unsubscribing a handle present in a category's list removes exactly
that one handle, preserving the relative order of the remaining
subscribers, and a subsequent publish of that category delivers to the
remaining subscribers in their original registration order. -/
theorem detach_removes_exactly_one_in_order (st : State) (c : Category)
    (h : Handle) (hnd : (subsList st c).Nodup) (hm : h ∈ subsList st c) :
    subsList (Detach c h st) c = (subsList st c).erase h
    ∧ (Notify (Detach c h st) c).1 = (subsList st c).erase h := by
  have h1 := subsList_Detach_self st c h hnd hm
  exact ⟨h1, by rw [Notify_fst, h1]⟩

/-- C9 witness at concrete input: detaching handle 2 from the list
[1, 2, 3] leaves [1, 3] in order. -/
theorem detach_removes_exactly_one_in_order_witness :
    (subsList (some [(0, [1, 2, 3])]) 0).Nodup ∧
      (2 : Handle) ∈ subsList (some [(0, [1, 2, 3])]) 0 ∧
      subsList (Detach 0 2 (some [(0, [1, 2, 3])])) 0 = [1, 3] ∧
      (Notify (Detach 0 2 (some [(0, [1, 2, 3])])) 0).1 = [1, 3] := by
  refine ⟨by decide, by decide, ?_, ?_⟩
  · rw [(detach_removes_exactly_one_in_order (some [(0, [1, 2, 3])]) 0 2
      (by decide) (by decide)).1]
    decide
  · rw [(detach_removes_exactly_one_in_order (some [(0, [1, 2, 3])]) 0 2
      (by decide) (by decide)).2]
    decide

/-- C10: subscribe and unsubscribe with category c leave every other
category's subscriber list unchanged, for every state, so a handle attached
to several categories keeps its other subscriptions when detached from one
of them. -/
theorem subscribe_unsubscribe_category_frame (st : State) (c d : Category)
    (h : Handle) (hdc : d ≠ c) :
    subsList (Attach c h st) d = subsList st d
    ∧ subsList (Detach c h st) d = subsList st d :=
  ⟨subsList_Attach_ne st c d h hdc, subsList_Detach_ne st c d h hdc⟩

/-- C10 witness at concrete input: attach and detach on category 0 leave
category 1's list [5] unchanged. -/
theorem subscribe_unsubscribe_category_frame_witness :
    (1 : Category) ≠ 0 ∧
      subsList (Attach 0 7 (some [(1, [5])])) 1 = [5] ∧
      subsList (Detach 0 5 (some [(1, [5])])) 1 = [5] := by
  refine ⟨by decide, ?_, ?_⟩
  · rw [(subscribe_unsubscribe_category_frame (some [(1, [5])]) 0 1 7
      (by decide)).1]
    decide
  · rw [(subscribe_unsubscribe_category_frame (some [(1, [5])]) 0 1 5
      (by decide)).2]
    decide

end EventSys
